import Mathlib

/-!
Verification of the budibase `InnerForm` form-state engine
(`packages/client/src/components/app/forms/InnerForm.svelte`).

The engine is shallowly embedded: JavaScript values are modelled by the
inductive `JSValue`, the per-form reactive state (the `fields` array, the
`currentStep` store, and the uuid source) by `FormSt`, the component props
(`initialValues`, `schema`, `disabled`, `disableValidation`, `table`) by
`FormEnv`, and each closure of `formApi` / `makeFieldApi` by a top-level
function that threads the state explicitly.  `Date.now()` is modelled by an
explicit `now : Nat` argument.  Runtime type errors that the source would
throw (calling a field API for an unregistered name dereferences
`undefined`) are modelled by an `Option` result, `none` meaning the throw.
-/

namespace InnerForm

/-- A JavaScript number as used by the engine: either `NaN` or an integer.
The engine only ever does integer arithmetic on step counters, so integer
values suffice; `NaN` is kept because `changeStep` tests `isNaN`. -/
inductive JSNum where
  | nan : JSNum
  | int (i : Int) : JSNum
  deriving DecidableEq, Repr

/-- JavaScript truthiness of a number: `NaN` and `0` are falsy. -/
def JSNum.truthy : JSNum → Bool
  | .nan => false
  | .int i => i != 0

/-- The `isNaN` test on a number. -/
def JSNum.isNaN : JSNum → Bool
  | .nan => true
  | .int _ => false

/-- The integer carried by a number (`0` for `NaN`; only read under a
truthiness guard that excludes `NaN`). -/
def JSNum.intD : JSNum → Int
  | .nan => 0
  | .int i => i

/-- A JavaScript value.  Objects are insertion-ordered string-keyed entry
lists (the engine only uses non-integer-like keys, for which JS preserves
insertion order).  Aliasing is not modelled: values are pure trees. -/
inductive JSValue where
  | undefined : JSValue
  | null : JSValue
  | bool (b : Bool) : JSValue
  | num (n : JSNum) : JSValue
  | str (s : String) : JSValue
  | arr (elems : List JSValue) : JSValue
  | obj (entries : List (String × JSValue)) : JSValue

/-- JavaScript truthiness of a value. -/
def jsTruthy : JSValue → Bool
  | .undefined => false
  | .null => false
  | .bool b => b
  | .num n => n.truthy
  | .str s => !s.isEmpty
  | .arr _ => true
  | .obj _ => true

/-- Loose nullish comparison `a == null` / `a == undefined`: true exactly for
the two nullish values. -/
def jsNullish : JSValue → Bool
  | .undefined => true
  | .null => true
  | _ => false

/-- The nullish-coalescing operator `a ?? b`. -/
def jsCoalesce (a b : JSValue) : JSValue :=
  if jsNullish a then b else a

/-- Strict equality `===`.  Primitive values compare structurally
(`NaN === NaN` is false); an object or array compares equal to nothing,
because aliasing (two references to one heap object) is not representable in
a pure value model — distinct literals are never `===`. -/
def jsStrictEq : JSValue → JSValue → Bool
  | .undefined, .undefined => true
  | .null, .null => true
  | .bool a, .bool b => a == b
  | .num (.int a), .num (.int b) => a == b
  | .str a, .str b => a == b
  | _, _ => false

/-- Look a key up in an entry list, first match. -/
def getKey : List (String × JSValue) → String → Option JSValue
  | [], _ => none
  | (k, v) :: rest, key => if k = key then some v else getKey rest key

/-- Plain property assignment `obj[k] = v` on an entry list: an existing key
keeps its position and gets the new value, a new key is appended (JS
property-order semantics). -/
def setKey : List (String × JSValue) → String → JSValue → List (String × JSValue)
  | [], key, v => [(key, v)]
  | (k, w) :: rest, key, v =>
    if k = key then (k, v) :: rest else (k, w) :: setKey rest key v

/-- Property read `a[k]` / optional chain `a?.[k]`: a key lookup on an
object, `undefined` on everything else (including the nullish receivers, on
which a plain read would throw — the engine only reads properties of values
it has guarded or that are objects by construction). -/
def jsGetProp : JSValue → String → JSValue
  | .obj entries, key => (getKey entries key).getD .undefined
  | _, _ => .undefined

/-- Modelled from the spec: `Helpers.cloneDeep`, a structural deep clone.
In a pure value model a deep clone is the identity. -/
def cloneDeep (v : JSValue) : JSValue := v

/-- Split a dotted path into its segments (`path.split(".")`): `"x.y"`
becomes `["x", "y"]`, a plain key is a single segment. -/
def splitPathGo : List Char → List Char → List String
  | cur, [] => [String.mk cur.reverse]
  | cur, c :: cs =>
    if c = '.' then String.mk cur.reverse :: splitPathGo [] cs
    else splitPathGo (c :: cur) cs

/-- Split a dotted path string into segments. -/
def splitPath (path : String) : List String :=
  splitPathGo [] path.data

/-- Modelled from the spec: the lookup half of the nested path get/set
helpers (`Helpers.deepGet`), walking a dotted path segment by segment; a
missing key or a non-object intermediate yields `undefined`.  Bracket paths
are not used by the engine and are not modelled. -/
def deepGetSegs : JSValue → List String → JSValue
  | v, [] => v
  | v, k :: rest => deepGetSegs (jsGetProp v k) rest

/-- Modelled from the spec: `Helpers.deepGet v path` splits `path` on `.`
and walks the segments. -/
def deepGet (v : JSValue) (path : String) : JSValue :=
  deepGetSegs v (splitPath path)

/-- Modelled from the spec: the update half of the nested path get/set
helpers (`Helpers.deepSet`), writing at a dotted path; missing or non-object
intermediates are replaced by fresh objects. -/
def deepSetSegs : JSValue → List String → JSValue → JSValue
  | v, [], _ => v
  | v, [k], x =>
    match v with
    | .obj entries => .obj (setKey entries k x)
    | _ => .obj [(k, x)]
  | v, k :: k2 :: rest, x =>
    match v with
    | .obj entries =>
      .obj (setKey entries k (deepSetSegs ((getKey entries k).getD .undefined) (k2 :: rest) x))
    | _ => .obj [(k, deepSetSegs .undefined (k2 :: rest) x)]

/-- Modelled from the spec: `Helpers.deepSet v path x` splits `path` on `.`
and writes at the segments. -/
def deepSet (v : JSValue) (path : String) (x : JSValue) : JSValue :=
  deepSetSegs v (splitPath path) x

/-- A field validator, as produced by the external validator factory: a pure
function from a candidate value to an error message or no-error. -/
def Validator : Type := JSValue → Option String

/-- Apply an optional validator, `validator?.(value)`: `undefined` (i.e.
`none`) when there is no validator. -/
def applyValidator : Option Validator → JSValue → Option String
  | none, _ => none
  | some v, x => v x

/-- JavaScript truthiness of a stored error value (`undefined`, `null` or a
string): only a non-empty string is truthy. -/
def errTruthy : Option String → Bool
  | none => false
  | some s => !s.isEmpty

/-- Modelled from the spec: the validator factory returns an error message
or no-error; a well-formed validator never reports the degenerate empty
string as an error message (an empty message is indistinguishable from
no-error everywhere the engine displays errors, and the source tests errors
by truthiness). -/
def ValidatorWF (v : Option Validator) : Prop :=
  ∀ x, applyValidator v x ≠ some ""

/-- The `fieldState` record of a registered field. -/
structure FieldState where
  fieldId : String
  value : JSValue
  error : Option String
  disabled : Bool
  defaultValue : JSValue
  validator : Option Validator
  lastUpdate : Nat

/-- One entry of the `fields` array.  The source also stores a `fieldApi`
closure in the record; the API is modelled by top-level functions keyed by
the field name, so no closure is stored. -/
structure Field where
  name : String
  type : String
  step : Int
  fieldState : FieldState
  fieldSchema : JSValue

/-- The component props of one `InnerForm` instance, together with the
external validator factory.  `makeValidator` is Modelled from the spec:
`createValidatorFromConstraints (constraints, customRules, fieldName,
tableMeta)` returns a pure function from a candidate value to an error
message or no-error. -/
structure FormEnv where
  disabled : Bool
  initialValues : JSValue
  schema : JSValue
  table : JSValue
  disableValidation : Bool
  makeValidator : JSValue → JSValue → String → JSValue → Validator

/-- The mutable state of one form instance: the `fields` array, the
`currentStep` store, and the uuid source (modelled as a counter). -/
structure FormSt where
  fields : List Field
  currentStep : Int
  nextId : Nat

/-- The initial state: no fields, step 1. -/
def initSt : FormSt := { fields := [], currentStep := 1, nextId := 0 }

/-- The `getField` helper: find the first field with a given name
(`fields.find(field => get(field).name === name)`). -/
def getField : List Field → String → Option Field
  | [], _ => none
  | field :: rest, name =>
    if field.name = name then some field else getField rest name

/-- The `deriveFieldProperty` helper: reduce the field array to an entry list mapping
each field name to an extracted property, `{...map, [field.name]: getProp
field}` — an existing key keeps its position and is overwritten. -/
def deriveFieldProperty (fields : List Field) (getProp : Field → JSValue) :
    List (String × JSValue) :=
  fields.foldl (fun map field => setKey map field.name (getProp field)) []

/-- The `values` derived store: each field's current value, keyed by name. -/
def deriveValues (fields : List Field) : List (String × JSValue) :=
  deriveFieldProperty fields (fun f => f.fieldState.value)

/-- Entry-list assignment at the error type (same semantics as `setKey`). -/
def errSetKey : List (String × Option String) → String → Option String →
    List (String × Option String)
  | [], key, v => [(key, v)]
  | (k, w) :: rest, key, v =>
    if k = key then (k, v) :: rest else (k, w) :: errSetKey rest key v

/-- The `errors` derived store: each field's current error, keyed by name.
An absent error (`undefined`/`null`) is `none`. -/
def deriveErrors (fields : List Field) : List (String × Option String) :=
  fields.foldl (fun map field => errSetKey map field.name field.fieldState.error) []

/-- The `valid` flag: `!Object.values($errors).some(error => error != null)`. -/
def deriveValid (fields : List Field) : Bool :=
  !(deriveErrors fields).any (fun p => p.2.isSome)

/-- The `url` computed for one attachment field by
`deriveBindingEnrichments`: `value[0].url` when the value is an array whose
first element is non-nullish, else `null`. -/
def attachmentFirstUrl (value : JSValue) : JSValue :=
  match value with
  | .arr (e :: _) => if jsNullish e then .null else jsGetProp e "url"
  | _ => .null

/-- The body of the `fieldValues.forEach` loop of
`deriveBindingEnrichments`: an attachment field assigns
`` `${field.name}_first` `` in the accumulator, any other field leaves it
alone. -/
def enrichStep (enrichments : List (String × JSValue)) (field : Field) :
    List (String × JSValue) :=
  if field.type = "attachment" then
    setKey enrichments (field.name ++ "_first")
      (attachmentFirstUrl field.fieldState.value)
  else enrichments

/-- The `deriveBindingEnrichments` derivation: for each attachment field, bind
`` `${field.name}_first` `` to the URL of the first attachment. -/
def deriveBindingEnrichments (fields : List Field) : List (String × JSValue) :=
  fields.foldl enrichStep []

/-- The entry produced for each field by `deriveFormValue` before sorting:
the key, the value, and `get(field).fieldState?.lastUpdate || 0`. -/
structure SortEntry where
  key : String
  value : JSValue
  lastUpdate : Nat

/-- The comparator the source passes to `Array.prototype.sort`,
`(a, b) => a.lastUpdate > b.lastUpdate`, after the engine's ToNumber
coercion of the boolean result: `1` when greater, `0` otherwise.  It never
returns a negative number. -/
def lastUpdateCmp (a b : SortEntry) : Int :=
  if a.lastUpdate > b.lastUpdate then 1 else 0

/-- The binary search of V8's binary insertion sort: find the insertion
point for `pivot` in the slice `[left, right)` of `sorted`, moving `right`
down to `mid` when `compare pivot sorted[mid] < 0` and `left` up to
`mid + 1` otherwise.  Fuel makes the recursion structural; callers pass
fuel at least `right - left`, which bounds the iteration count. -/
def binInsertPos (cmp : SortEntry → SortEntry → Int) (pivot : SortEntry)
    (sorted : List SortEntry) : Nat → Nat → Nat → Nat
  | 0, left, _ => left
  | fuel + 1, left, right =>
    if left < right then
      let mid := left + (right - left) / 2
      if cmp pivot (sorted.getD mid pivot) < 0 then
        binInsertPos cmp pivot sorted fuel left mid
      else
        binInsertPos cmp pivot sorted fuel (mid + 1) right
    else left

/-- Binary insertion sort over a list, processing elements left to right and
inserting each into the sorted prefix at the position found by the binary
search.  This models `Array.prototype.sort` as V8 runs it on the short
arrays the engine produces (ECMAScript leaves the order
implementation-defined for an inconsistent comparator such as
`lastUpdateCmp`, which never returns a negative number). -/
def binarySortGo (cmp : SortEntry → SortEntry → Int) :
    List SortEntry → List SortEntry → List SortEntry
  | sorted, [] => sorted
  | sorted, x :: rest =>
    let p := binInsertPos cmp x sorted (sorted.length + 1) 0 sorted.length
    binarySortGo cmp (sorted.take p ++ x :: sorted.drop p) rest

/-- The `.sort((a, b) => a.lastUpdate > b.lastUpdate)` call of
`deriveFormValue`, under the V8 model of `binarySortGo`. -/
def jsSortByLastUpdate (entries : List SortEntry) : List SortEntry :=
  binarySortGo lastUpdateCmp [] entries

/-- The `deriveFormValue` derivation: clone `initialValues` (or `{}` when falsy), build a
sort entry per `values` key with that field's `lastUpdate` (the source reads
it through `getField`, which closes over the field array; a missing field
would make the source throw — the engine only derives over keys of
registered fields, and the model uses `0` there like the `|| 0` fallback),
sort with the boolean comparator, deep-set every sorted entry, then
deep-set every enrichment. -/
def deriveFormValue (initialValues : JSValue) (values : List (String × JSValue))
    (enrichments : List (String × JSValue)) (fields : List Field) : JSValue :=
  let formValue := cloneDeep (if jsTruthy initialValues then initialValues else .obj [])
  let entries := values.map (fun p =>
    { key := p.1, value := p.2,
      lastUpdate :=
        match getField fields p.1 with
        | some field => field.fieldState.lastUpdate
        | none => 0 : SortEntry })
  let sortedFields := jsSortByLastUpdate entries
  let merged := sortedFields.foldl (fun acc e => deepSet acc e.key e.value) formValue
  enrichments.foldl (fun acc p => deepSet acc p.1 p.2) merged

/-- The coercion `step || 1`: the stored step number, `1` when the supplied step is
falsy (`0`, `NaN`). -/
def jsNumOr1 (step : JSNum) : Int :=
  if step.truthy then step.intD else 1

/-- The validator built at registration / validation-update time:
`disableValidation ? null : createValidatorFromConstraints(
schema?.[field]?.constraints, validationRules, field, table)`. -/
def buildValidator (env : FormEnv) (field : String) (validationRules : JSValue) :
    Option Validator :=
  if env.disableValidation then none
  else some (env.makeValidator (jsGetProp (jsGetProp env.schema field) "constraints")
    validationRules field env.table)

/-- Apply an update function to the first field with the given name,
modelling `fieldInfo.update(...)` on the store `getField` found: the record
keeps its position in the array. -/
def updateFieldAt : List Field → String → (Field → Field) → List Field
  | [], _, _ => []
  | f :: fs, name, g =>
    if f.name = name then g f :: fs else f :: updateFieldAt fs name g

/-- The operation `formApi.registerField(field, type, defaultValue = null,
fieldDisabled = false, validationRules, step = 1)`.  The name parameter is `none` for
`undefined`; the source's `if (!field) return` guard fires for `undefined`
and for the empty string.  `Helpers.uuid()` is modelled by the `nextId`
counter (Modelled from the spec: unique ID generation), consumed on every
call that passes the guard, exactly like the source's unconditional
``let fieldId = `id-${Helpers.uuid()}` ``. -/
def registerField (env : FormEnv) (now : Nat) (st : FormSt) (field : Option String)
    (type : String) (defaultValue : JSValue) (fieldDisabled : Bool)
    (validationRules : JSValue) (step : JSNum) : Option Field × FormSt :=
  match field with
  | none => (none, st)
  | some name =>
    if name = "" then (none, st)
    else
      let validator := buildValidator env name validationRules
      let existingField := getField st.fields name
      let fieldId :=
        match existingField with
        | some ef => ef.fieldState.fieldId
        | none => "id-" ++ toString st.nextId
      let initialValue :=
        match existingField with
        | some ef =>
          jsCoalesce ef.fieldState.value
            (jsCoalesce (deepGet env.initialValues name) defaultValue)
        | none => jsCoalesce (deepGet env.initialValues name) defaultValue
      let initialError :=
        match existingField with
        | some ef =>
          if errTruthy ef.fieldState.error then applyValidator validator initialValue
          else none
        | none => none
      let isAutoColumn := jsTruthy (jsGetProp (jsGetProp env.schema name) "autocolumn")
      let fieldInfo : Field :=
        { name := name
          type := type
          step := jsNumOr1 step
          fieldState :=
            { fieldId := fieldId
              value := initialValue
              error := initialError
              disabled := env.disabled || fieldDisabled || isAutoColumn
              defaultValue := defaultValue
              validator := validator
              lastUpdate := now }
          fieldSchema := jsCoalesce (jsGetProp env.schema name) (.obj []) }
      let fields :=
        match existingField with
        | some _ => st.fields.filter (fun info => info.name ≠ name) ++ [fieldInfo]
        | none => st.fields ++ [fieldInfo]
      (some fieldInfo, { st with fields := fields, nextId := st.nextId + 1 })

/-- The operation `makeFieldApi(field).setValue(value, skipCheck = false)`.  The result is
`none` when the field is not registered (the source dereferences `undefined`
and throws); otherwise `some (r, st)` where `r` is the JS return value:
`none` for the skip branch's bare `return`, `some b` for `return !error`. -/
def setValue (now : Nat) (st : FormSt) (field : String) (value : JSValue)
    (skipCheck : Bool) : Option (Option Bool × FormSt) :=
  match getField st.fields field with
  | none => none
  | some fieldInfo =>
    let fieldState := fieldInfo.fieldState
    if !skipCheck && jsStrictEq fieldState.value value then some (none, st)
    else
      let error := applyValidator fieldState.validator value
      let fields := updateFieldAt st.fields field (fun state =>
        { state with fieldState :=
          { state.fieldState with value := value, error := error, lastUpdate := now } })
      some (some (!errTruthy error), { st with fields := fields })

/-- The operation `makeFieldApi(field).clearValue()`: reset the value to
`initialValues[field] ?? fieldState.defaultValue` (a literal, top-level
property read of `initialValues`, not a deep path lookup), clear the error,
refresh `lastUpdate`.  The validator is not invoked. -/
def clearValue (env : FormEnv) (now : Nat) (st : FormSt) (field : String) :
    Option FormSt :=
  match getField st.fields field with
  | none => none
  | some fieldInfo =>
    let newValue := jsCoalesce (jsGetProp env.initialValues field)
      fieldInfo.fieldState.defaultValue
    some { st with fields := updateFieldAt st.fields field (fun state =>
      { state with fieldState :=
        { state.fieldState with value := newValue, error := none, lastUpdate := now } }) }

/-- The operation `makeFieldApi(field).updateValidation(validationRules)`:
rebuild the
validator, store it, and when an error is currently set (truthy) re-run
`setValue` with the existing value and `skipCheck = true`. -/
def updateValidation (env : FormEnv) (now : Nat) (st : FormSt) (field : String)
    (validationRules : JSValue) : Option FormSt :=
  match getField st.fields field with
  | none => none
  | some fieldInfo =>
    let value := fieldInfo.fieldState.value
    let error := fieldInfo.fieldState.error
    let validator := buildValidator env field validationRules
    let st1 := { st with fields := updateFieldAt st.fields field (fun state =>
      { state with fieldState := { state.fieldState with validator := validator } }) }
    if errTruthy error then
      match setValue now st1 field value true with
      | none => none
      | some (_, st2) => some st2
    else some st1

/-- The operation `makeFieldApi(field).setDisabled(fieldDisabled)`: recompute
the disabled
flag as `disabled || fieldDisabled || isAutoColumn`. -/
def setDisabled (env : FormEnv) (st : FormSt) (field : String)
    (fieldDisabled : Bool) : Option FormSt :=
  match getField st.fields field with
  | none => none
  | some _ =>
    let isAutoColumn := jsTruthy (jsGetProp (jsGetProp env.schema field) "autocolumn")
    some { st with fields := updateFieldAt st.fields field (fun state =>
      { state with fieldState :=
        { state.fieldState with disabled := env.disabled || fieldDisabled || isAutoColumn } }) }

/-- The operation `makeFieldApi(field).validate()`: force-set the current
value again with
`skipCheck = true` and return the result; the form-level loop tests the
returned value by truthiness, so the result is reduced to a `Bool`. -/
def fieldValidate (now : Nat) (st : FormSt) (field : String) :
    Option (Bool × FormSt) :=
  match getField st.fields field with
  | none => none
  | some fieldInfo =>
    match setValue now st field fieldInfo.fieldState.value true with
    | none => none
    | some (r, st1) => some (r == some true, st1)

/-- The `validationFields.forEach` loop of `formApi.validate`: run each
field's `validate()` in order, accumulating `valid &&= result`. -/
def formValidateGo (now : Nat) : List String → Bool → FormSt →
    Option (Bool × FormSt)
  | [], valid, st => some (valid, st)
  | name :: rest, valid, st =>
    match fieldValidate now st name with
    | none => none
    | some (b, st1) => formValidateGo now rest (valid && b) st1

/-- The operation `formApi.validate(onlyCurrentStep = false)`: reduce the
fields to the
current step when requested, validate each in order, and return whether all
were valid together with the final state. -/
def formValidate (now : Nat) (st : FormSt) (onlyCurrentStep : Bool) :
    Option (Bool × FormSt) :=
  let validationFields :=
    if onlyCurrentStep then st.fields.filter (fun f => f.step = st.currentStep)
    else st.fields
  formValidateGo now (validationFields.map (fun f => f.name)) true st

/-- The `fields.forEach` loop of `formApi.clear`. -/
def formClearGo (env : FormEnv) (now : Nat) : List String → FormSt → Option FormSt
  | [], st => some st
  | name :: rest, st =>
    match clearValue env now st name with
    | none => none
    | some st1 => formClearGo env now rest st1

/-- The operation `formApi.clear()`: clear every registered field. -/
def formClear (env : FormEnv) (now : Nat) (st : FormSt) : Option FormSt :=
  formClearGo env now (st.fields.map (fun f => f.name)) st

/-- The operation `formApi.changeStep({ type, number })`.  The `number` member is `none`
for `undefined`; the `specific` branch fires only when
`number && !isNaN(number)` — so an absent, `NaN` or `0` number is a no-op. -/
def changeStep (st : FormSt) (type : String) (number : Option JSNum) : FormSt :=
  if type = "next" then { st with currentStep := st.currentStep + 1 }
  else if type = "prev" then { st with currentStep := max 1 (st.currentStep - 1) }
  else if type = "first" then { st with currentStep := 1 }
  else if type = "specific"
      && (match number with | some n => n.truthy | none => false)
      && !(match number with | some n => n.isNaN | none => true) then
    { st with currentStep := (number.getD (.int 1)).intD }
  else st

/-- The operation `formApi.setStep(step)`: unconditional direct set, ignored when the step
is falsy. -/
def setStep (st : FormSt) (step : JSNum) : FormSt :=
  if step.truthy then { st with currentStep := step.intD } else st

/-- One externally triggered mutation of the form state: a call into
`formApi` or into some field's `fieldApi`.  Operations whose source would
throw (unregistered field name) only step when they return a state. -/
inductive StepRel (env : FormEnv) : FormSt → FormSt → Prop
  | register (now st field type defaultValue fieldDisabled validationRules step) :
    StepRel env st
      (registerField env now st field type defaultValue fieldDisabled
        validationRules step).2
  | setVal (now st field value skipCheck r st1)
      (h : setValue now st field value skipCheck = some (r, st1)) :
    StepRel env st st1
  | clearVal (now st field st1) (h : clearValue env now st field = some st1) :
    StepRel env st st1
  | updateVal (now st field rules st1)
      (h : updateValidation env now st field rules = some st1) :
    StepRel env st st1
  | setDis (st field fieldDisabled st1)
      (h : setDisabled env st field fieldDisabled = some st1) :
    StepRel env st st1
  | fieldVal (now st field b st1) (h : fieldValidate now st field = some (b, st1)) :
    StepRel env st st1
  | formVal (now st onlyCurrentStep b st1)
      (h : formValidate now st onlyCurrentStep = some (b, st1)) :
    StepRel env st st1
  | formClr (now st st1) (h : formClear env now st = some st1) :
    StepRel env st st1
  | changeStp (st type number) : StepRel env st (changeStep st type number)
  | setStp (st step) : StepRel env st (setStep st step)

/-- The states the form engine can reach from the initial state. -/
inductive Reachable (env : FormEnv) : FormSt → Prop
  | init : Reachable env initSt
  | step (st st1) (h : Reachable env st) (hs : StepRel env st st1) : Reachable env st1

/-- Stable ascending insertion by `lastUpdate`: the new entry goes before
the first strictly later entry and after entries with the same timestamp
that preceded it. -/
def insertAscending (x : SortEntry) : List SortEntry → List SortEntry
  | [] => [x]
  | y :: ys =>
    if x.lastUpdate ≤ y.lastUpdate then x :: y :: ys else y :: insertAscending x ys

/-- Stable ascending insertion sort by `lastUpdate`. -/
def sortAscending : List SortEntry → List SortEntry
  | [] => []
  | x :: xs => insertAscending x (sortAscending xs)

/-- Modelled from the spec: `formValue` as the specification words it — the
same derivation as `deriveFormValue`, but with the field entries applied in
ascending `lastUpdate` order (a correct stable ascending sort in place of
the source's boolean comparator).  Kept side by side with `deriveFormValue`
to compare the source's merge order with the specified one. -/
def deriveFormValueAscending (initialValues : JSValue)
    (values : List (String × JSValue)) (enrichments : List (String × JSValue))
    (fields : List Field) : JSValue :=
  let formValue := cloneDeep (if jsTruthy initialValues then initialValues else .obj [])
  let entries := values.map (fun p =>
    { key := p.1, value := p.2,
      lastUpdate :=
        match getField fields p.1 with
        | some field => field.fieldState.lastUpdate
        | none => 0 : SortEntry })
  let sortedFields := sortAscending entries
  let merged := sortedFields.foldl (fun acc e => deepSet acc e.key e.value) formValue
  enrichments.foldl (fun acc p => deepSet acc p.1 p.2) merged

/-- The names of the registered fields, in array order. -/
def fieldNames (fields : List Field) : List String :=
  fields.map (fun f => f.name)

/-- The current value of a named field (`undefined` when unregistered). -/
def fieldValueAt (st : FormSt) (name : String) : JSValue :=
  match getField st.fields name with
  | some f => f.fieldState.value
  | none => .undefined

/-- The validator of a named field (`none` when unregistered). -/
def fieldValidatorAt (st : FormSt) (name : String) : Option Validator :=
  match getField st.fields name with
  | some f => f.fieldState.validator
  | none => none

/-- The part of a field record that field-level validation never changes:
name, current value, validator, and step. -/
def core (f : Field) : String × JSValue × Option Validator × Int :=
  (f.name, f.fieldState.value, f.fieldState.validator, f.step)

/-- Whether re-validating the named field's current value reports no truthy
error: the boolean that `fieldValidate` returns. -/
def fieldOkAt (st : FormSt) (n : String) : Bool :=
  !errTruthy (applyValidator (fieldValidatorAt st n) (fieldValueAt st n))

/-- A sample validator used by concrete instances: flags a falsy value with
a "Required" message. -/
def reqValidator : Validator := fun v =>
  if jsTruthy v then none else some "Required"

/-- Build a sample field record for concrete instances. -/
def mkSample (name type : String) (step : Int) (value : JSValue)
    (error : Option String) (defaultValue : JSValue) (validator : Option Validator)
    (lastUpdate : Nat) : Field :=
  { name := name, type := type, step := step
    fieldState :=
      { fieldId := "id-" ++ name, value := value, error := error,
        disabled := false, defaultValue := defaultValue, validator := validator,
        lastUpdate := lastUpdate }
    fieldSchema := .obj [] }

/-- A sample environment for concrete instances. -/
def sampleEnv : FormEnv :=
  { disabled := false
    initialValues := .obj [("x", .obj [("y", .num (.int 7))]), ("plain", .str "init")]
    schema := .undefined
    table := .undefined
    disableValidation := false
    makeValidator := fun _ _ _ _ => fun _ => none }

/-- C1's concrete input: a composite field at path `x` updated at time 10,
and a nested field at path `x.y` updated earlier, at time 5, registered in
that order. -/
def c1FieldX : Field :=
  mkSample "x" "json" 1 (.obj [("y", .num (.int 1))]) none .null none 10

/-- C1's nested field at path `x.y`, the earlier write. -/
def c1FieldXY : Field :=
  mkSample "x.y" "number" 1 (.num (.int 2)) none .null none 5

/-- C1's field array. -/
def c1Fields : List Field := [c1FieldX, c1FieldXY]

/-- A sample state at step 3 with no fields. -/
def step3St : FormSt := { fields := [], currentStep := 3, nextId := 0 }

/-! ## Theorems -/

/-- Coalescing keeps a non-nullish left operand. -/
theorem jsCoalesce_of_not_nullish (a b : JSValue) (h : jsNullish a = false) :
    jsCoalesce a b = a := by
  simp [jsCoalesce, h]

/-- Coalescing falls through a nullish left operand. -/
theorem jsCoalesce_of_nullish (a b : JSValue) (h : jsNullish a = true) :
    jsCoalesce a b = b := by
  simp [jsCoalesce, h]

/-- Updating a field in place is found again by name when the update
preserves the name. -/
theorem getField_updateFieldAt_self (fields : List Field) (name : String)
    (g : Field → Field) (hg : ∀ f, (g f).name = f.name) :
    getField (updateFieldAt fields name g) name = (getField fields name).map g := by
  induction fields with
  | nil => rfl
  | cons f fs ih =>
    by_cases h : f.name = name
    · simp [updateFieldAt, getField, h, hg]
    · simp [updateFieldAt, getField, h, ih]

/-- Updating one field in place leaves lookups of every other name
unchanged, when the update preserves the name. -/
theorem getField_updateFieldAt_ne (fields : List Field) (name m : String)
    (g : Field → Field) (hg : ∀ f, (g f).name = f.name) (hne : m ≠ name) :
    getField (updateFieldAt fields name g) m = getField fields m := by
  induction fields with
  | nil => rfl
  | cons f fs ih =>
    by_cases h : f.name = name
    · have hnm : ¬ name = m := fun hc => hne hc.symm
      have hfm : ¬ f.name = m := fun hc => hne (hc ▸ h.symm ▸ rfl)
      have hgm : ¬ (g f).name = m := by rw [hg]; exact hfm
      simp [updateFieldAt, getField, h, hfm, hgm, hnm]
    · simp [updateFieldAt, getField, h, ih]

/-- A field with a different name survives an in-place update untouched. -/
theorem mem_updateFieldAt_of_ne (fields : List Field) (name : String)
    (g : Field → Field) (f1 : Field) (hmem : f1 ∈ fields) (hne : f1.name ≠ name) :
    f1 ∈ updateFieldAt fields name g := by
  induction fields with
  | nil => simp at hmem
  | cons f fs ih =>
    rcases List.mem_cons.mp hmem with hf | hf
    · subst hf
      have : ¬ f1.name = name := hne
      simp [updateFieldAt, this]
    · by_cases h : f.name = name
      · simp [updateFieldAt, h, hf]
      · simp [updateFieldAt, h]
        exact Or.inr (ih hf)

/-- A lookup that misses an entire prefix continues in the suffix. -/
theorem getField_append_of_none (fields more : List Field) (name : String)
    (h : getField fields name = none) :
    getField (fields ++ more) name = getField more name := by
  induction fields with
  | nil => rfl
  | cons f fs ih =>
    by_cases hf : f.name = name
    · simp [getField, hf] at h
    · simp [getField, hf] at h ⊢
      exact ih h

/-- The `valid` flag is the absence of any non-absent entry in the derived `errors`
map, for every field array. -/
theorem deriveValid_iff_general (fields : List Field) :
    deriveValid fields = true ↔ ∀ p ∈ deriveErrors fields, p.2 = none := by
  unfold deriveValid
  rw [Bool.not_eq_true']
  rw [List.any_eq_false]
  constructor
  · intro h p hp
    have hsome := h p hp
    cases hp2 : p.2 with
    | none => rfl
    | some s => rw [hp2] at hsome; simp at hsome
  · intro h p hp
    simp [h p hp]

/-- C2: in every reachable state of the form engine, the derived `valid`
flag is true exactly when the derived `errors` map binds no field name to a
non-absent error. -/
theorem c2_valid_iff_no_error (env : FormEnv) (st : FormSt)
    (hreach : Reachable env st) :
    deriveValid st.fields = true ↔ ∀ p ∈ deriveErrors st.fields, p.2 = none :=
  match hreach with
  | _ => deriveValid_iff_general st.fields

/-- C2 witness: the equivalence at the initial (empty, reachable) state. -/
theorem c2_valid_iff_no_error_witness :
    deriveValid initSt.fields = true ↔ ∀ p ∈ deriveErrors initSt.fields, p.2 = none :=
  c2_valid_iff_no_error sampleEnv initSt Reachable.init

/-- The `clearValue` operation on a registered field: full characterization of the result
state — the named field is replaced in place by a copy with the coalesced
initial value, no error, and a refreshed timestamp. -/
theorem clearValue_found (env : FormEnv) (now : Nat) (st : FormSt) (name : String)
    (f : Field) (hf : getField st.fields name = some f) :
    ∃ st1, clearValue env now st name = some st1
      ∧ getField st1.fields name = some { f with fieldState := { f.fieldState with
          value := jsCoalesce (jsGetProp env.initialValues name) f.fieldState.defaultValue,
          error := none,
          lastUpdate := now } }
      ∧ (∀ g1 ∈ st.fields, g1.name ≠ name → g1 ∈ st1.fields)
      ∧ st1.currentStep = st.currentStep := by
  have hself := getField_updateFieldAt_self st.fields name
    (fun state => { state with fieldState := { state.fieldState with
      value := jsCoalesce (jsGetProp env.initialValues name) f.fieldState.defaultValue,
      error := none,
      lastUpdate := now } }) (fun f2 => rfl)
  rw [hf] at hself
  unfold clearValue
  rw [hf]
  exact ⟨_, rfl, hself,
    fun g1 hg1 hne => mem_updateFieldAt_of_ne st.fields name _ g1 hg1 hne, rfl⟩

/-- C7: `clearValue()` on a registered field sets its value to
`initialValues[name] ?? defaultValue` (a literal top-level lookup), clears
the error, and refreshes `lastUpdate`; the stored validator is untouched
and — the conclusions holding for an arbitrary stored validator, with the
error cleared to `none` rather than recomputed — never invoked.  Other
fields and the current step are unchanged. -/
theorem c7_clearValue_spec (env : FormEnv) (now : Nat) (st : FormSt) (name : String)
    (f : Field) (hf : getField st.fields name = some f) :
    ∃ st1, clearValue env now st name = some st1
      ∧ (∃ f1, getField st1.fields name = some f1
          ∧ f1.fieldState.value
              = jsCoalesce (jsGetProp env.initialValues name) f.fieldState.defaultValue
          ∧ f1.fieldState.error = none
          ∧ f1.fieldState.lastUpdate = now
          ∧ f1.fieldState.validator = f.fieldState.validator
          ∧ f1.fieldState.fieldId = f.fieldState.fieldId
          ∧ f1.fieldState.defaultValue = f.fieldState.defaultValue)
      ∧ (∀ g1 ∈ st.fields, g1.name ≠ name → g1 ∈ st1.fields)
      ∧ st1.currentStep = st.currentStep := by
  obtain ⟨st1, hclear, hget, hmem, hstep⟩ := clearValue_found env now st name f hf
  exact ⟨st1, hclear, ⟨_, hget, rfl, rfl, rfl, rfl, rfl, rfl⟩, hmem, hstep⟩

/-- A sample registered state used by the C7 witness. -/
def c7St : FormSt :=
  { fields := [mkSample "plain" "text" 1 (.str "x") (some "Required") (.str "dflt")
      (some reqValidator) 3]
    currentStep := 1
    nextId := 1 }

/-- C7 witness: clearing the sample field resets it to the initial value
`"init"` with no error. -/
theorem c7_clearValue_spec_witness :
    ∃ st1, clearValue sampleEnv 9 c7St "plain" = some st1
      ∧ (∃ f1, getField st1.fields "plain" = some f1
          ∧ f1.fieldState.value = jsCoalesce (jsGetProp sampleEnv.initialValues "plain")
              (mkSample "plain" "text" 1 (.str "x") (some "Required") (.str "dflt")
                (some reqValidator) 3).fieldState.defaultValue
          ∧ f1.fieldState.error = none
          ∧ f1.fieldState.lastUpdate = 9
          ∧ f1.fieldState.validator
              = (mkSample "plain" "text" 1 (.str "x") (some "Required") (.str "dflt")
                  (some reqValidator) 3).fieldState.validator
          ∧ f1.fieldState.fieldId
              = (mkSample "plain" "text" 1 (.str "x") (some "Required") (.str "dflt")
                  (some reqValidator) 3).fieldState.fieldId
          ∧ f1.fieldState.defaultValue
              = (mkSample "plain" "text" 1 (.str "x") (some "Required") (.str "dflt")
                  (some reqValidator) 3).fieldState.defaultValue)
      ∧ (∀ g1 ∈ c7St.fields, g1.name ≠ "plain" → g1 ∈ st1.fields)
      ∧ st1.currentStep = c7St.currentStep :=
  c7_clearValue_spec sampleEnv 9 c7St "plain"
    (mkSample "plain" "text" 1 (.str "x") (some "Required") (.str "dflt")
      (some reqValidator) 3) rfl

/-- A lookup hitting a just-appended field with the right name. -/
theorem getField_append_singleton (fields : List Field) (f : Field) (name : String)
    (h : getField fields name = none) (hn : f.name = name) :
    getField (fields ++ [f]) name = some f := by
  rw [getField_append_of_none fields [f] name h]
  simp [getField, hn]

/-- The `registerField` operation for a fresh (unregistered, non-empty) name: returns the
new field record, whose value is the coalesced deep lookup, appended to the
field array. -/
theorem registerField_fresh (env : FormEnv) (now : Nat) (st : FormSt)
    (name type : String) (defaultValue : JSValue) (fieldDisabled : Bool)
    (validationRules : JSValue) (step : JSNum)
    (hname : name ≠ "") (hfresh : getField st.fields name = none) :
    ∃ f st1, registerField env now st (some name) type defaultValue fieldDisabled
        validationRules step = (some f, st1)
      ∧ f.name = name
      ∧ f.fieldState.value = jsCoalesce (deepGet env.initialValues name) defaultValue
      ∧ f.fieldState.error = none
      ∧ f.fieldState.defaultValue = defaultValue
      ∧ f.fieldState.validator = buildValidator env name validationRules
      ∧ f.fieldState.lastUpdate = now
      ∧ st1.fields = st.fields ++ [f]
      ∧ st1.currentStep = st.currentStep := by
  simp only [registerField, hfresh]
  rw [if_neg hname]
  exact ⟨_, _, rfl, rfl, rfl, rfl, rfl, rfl, rfl, rfl, rfl⟩

/-- C10: `registerField` resolves a missing initial value by a deep, dotted
lookup in `initialValues`, while `clearValue` reads only the literal
top-level key; a field registered under a dotted name whose initial value
exists only at the nested path is therefore registered with the nested
value, but cleared back to `defaultValue`. -/
theorem c10_dotted_clear_uses_literal_key (env : FormEnv) (now1 now2 : Nat)
    (st : FormSt) (name type : String) (defaultValue : JSValue)
    (fieldDisabled : Bool) (validationRules : JSValue) (step : JSNum)
    (hname : name ≠ "")
    (hfresh : getField st.fields name = none)
    (hlit : jsNullish (jsGetProp env.initialValues name) = true)
    (hdeep : jsNullish (deepGet env.initialValues name) = false) :
    ∃ f st1, registerField env now1 st (some name) type defaultValue fieldDisabled
        validationRules step = (some f, st1)
      ∧ f.fieldState.value = deepGet env.initialValues name
      ∧ ∃ st2, clearValue env now2 st1 name = some st2
        ∧ ∃ f2, getField st2.fields name = some f2
          ∧ f2.fieldState.value = defaultValue := by
  obtain ⟨f, st1, hreg, hfname, hval, _, hdef, _, _, hfields, _⟩ :=
    registerField_fresh env now1 st name type defaultValue fieldDisabled
      validationRules step hname hfresh
  have hget1 : getField st1.fields name = some f := by
    rw [hfields]
    exact getField_append_singleton st.fields f name hfresh hfname
  obtain ⟨st2, hclear, hget2, _, _⟩ := clearValue_found env now2 st1 name f hget1
  refine ⟨f, st1, hreg, ?_, st2, hclear, _, hget2, ?_⟩
  · rw [hval]
    exact jsCoalesce_of_not_nullish _ _ hdeep
  · show jsCoalesce (jsGetProp env.initialValues name) f.fieldState.defaultValue
      = defaultValue
    rw [jsCoalesce_of_nullish _ _ hlit, hdef]

/-- The C10 witness environment: the initial value for `x.y` exists only at
the nested path. -/
def c10Env : FormEnv :=
  { disabled := false
    initialValues := .obj [("x", .obj [("y", .num (.int 7))])]
    schema := .undefined
    table := .undefined
    disableValidation := true
    makeValidator := fun _ _ _ _ => fun _ => none }

/-- C10 witness: registering `"x.y"` picks up the nested `7`; clearing
falls back to the default `0`. -/
theorem c10_dotted_clear_uses_literal_key_witness :
    ∃ f st1, registerField c10Env 1 initSt (some "x.y") "number" (.num (.int 0))
        false .undefined (.int 1) = (some f, st1)
      ∧ f.fieldState.value = deepGet c10Env.initialValues "x.y"
      ∧ ∃ st2, clearValue c10Env 2 st1 "x.y" = some st2
        ∧ ∃ f2, getField st2.fields "x.y" = some f2
          ∧ f2.fieldState.value = .num (.int 0) :=
  c10_dotted_clear_uses_literal_key c10Env 1 2 initSt "x.y" "number" (.num (.int 0))
    false .undefined (.int 1) (by decide) rfl rfl rfl

/-- The boolean comparator, coerced to a number, is never negative. -/
theorem lastUpdateCmp_nonneg (a b : SortEntry) : 0 ≤ lastUpdateCmp a b := by
  unfold lastUpdateCmp
  split <;> decide

/-- With a comparator that never returns a negative number, the binary
search of V8's insertion sort always answers the upper bound: the pivot is
never moved. -/
theorem binInsertPos_of_nonneg (cmp : SortEntry → SortEntry → Int)
    (h : ∀ a b, 0 ≤ cmp a b) (pivot : SortEntry) (sorted : List SortEntry) :
    ∀ fuel left right, left ≤ right → right - left ≤ fuel →
      binInsertPos cmp pivot sorted fuel left right = right := by
  intro fuel
  induction fuel with
  | zero =>
    intro left right hlr hfuel
    have : left = right := by omega
    simp [binInsertPos, this]
  | succ n ih =>
    intro left right hlr hfuel
    unfold binInsertPos
    by_cases hcase : left < right
    · simp only [hcase, if_true]
      have hge := h pivot (sorted.getD (left + (right - left) / 2) pivot)
      have hneg : ¬ cmp pivot (sorted.getD (left + (right - left) / 2) pivot) < 0 := by
        omega
      simp only [hneg, if_false]
      exact ih (left + (right - left) / 2 + 1) right (by omega) (by omega)
    · simp only [hcase, if_false]
      omega

/-- With a comparator that never returns a negative number, V8's binary
insertion sort is the identity permutation. -/
theorem binarySortGo_of_nonneg (cmp : SortEntry → SortEntry → Int)
    (h : ∀ a b, 0 ≤ cmp a b) :
    ∀ rest sorted, binarySortGo cmp sorted rest = sorted ++ rest := by
  intro rest
  induction rest with
  | nil => intro sorted; simp [binarySortGo]
  | cons x xs ih =>
    intro sorted
    unfold binarySortGo
    rw [binInsertPos_of_nonneg cmp h x sorted (sorted.length + 1) 0 sorted.length
      (Nat.zero_le _) (by omega)]
    simp only [List.take_length, List.drop_length, ih]
    simp

/-- The sort of `deriveFormValue` leaves the entry list untouched: the
source's comparator returns a coerced boolean, never a negative number, so
the sort does not reorder anything. -/
theorem jsSortByLastUpdate_eq_id (entries : List SortEntry) :
    jsSortByLastUpdate entries = entries := by
  unfold jsSortByLastUpdate
  rw [binarySortGo_of_nonneg lastUpdateCmp lastUpdateCmp_nonneg]
  rfl

/-- C1 (code bug): `deriveFormValue` is claimed to apply the registered
fields in ascending `lastUpdate` order, so that of two fields with
overlapping paths the later-updated one wins.  The source sorts with
`(a, b) => a.lastUpdate > b.lastUpdate`, a comparator returning a coerced
boolean (`1` or `0`, never negative), which is not a consistent comparator;
under the modelled engine behaviour the sort is the identity and fields are
applied in registration order.  At this input the field at path `x`
(`lastUpdate` 10) is overwritten on the subpath `x.y` by the field at path
`x.y` (`lastUpdate` 5): the code yields `y = 2`, while the specified
ascending-order derivation (`deriveFormValueAscending`) yields `y = 1`. -/
theorem c1_deriveFormValue_merge_order_bug :
    deriveFormValue (.obj []) (deriveValues c1Fields) [] c1Fields
      = .obj [("x", .obj [("y", .num (.int 2))])]
    ∧ deriveFormValueAscending (.obj []) (deriveValues c1Fields) [] c1Fields
      = .obj [("x", .obj [("y", .num (.int 1))])] :=
  ⟨rfl, rfl⟩

/-- C3: registering a field with an absent (`undefined`) or empty name is a
silent no-op: the state (in particular the field registry) is unchanged and
no handle is returned. -/
theorem c3_registerField_empty_name_noop (env : FormEnv) (now : Nat) (st : FormSt)
    (type : String) (defaultValue : JSValue) (fieldDisabled : Bool)
    (validationRules : JSValue) (step : JSNum) :
    registerField env now st none type defaultValue fieldDisabled
      validationRules step = (none, st)
    ∧ registerField env now st (some "") type defaultValue fieldDisabled
      validationRules step = (none, st) := by
  constructor
  · rfl
  · rfl

/-- C6 counterexample: the claim says `changeStep({type: "specific",
number})` with a numeric `number` sets `currentStep` to `number` regardless
of the current step.  `0` is numeric, but the source guards the branch with
`number && !isNaN(number)` and `0` is falsy: at `currentStep = 3` the call
leaves the step at `3`, not `0`. -/
theorem c6_changeStep_specific_zero_counterexample :
    (changeStep step3St "specific" (some (.int 0))).currentStep = 3
    ∧ (3 : Int) ≠ 0 := by
  constructor
  · rfl
  · decide

/-- C6 (amended): `changeStep({type, number})` implements exactly these
transitions on `currentStep`: `"next"` increments it by 1; `"prev"` sets it
to `max 1 (currentStep - 1)`, so at step 1 it stays at 1; `"first"` sets it
to 1; `"specific"` with a numeric nonzero `number` sets `currentStep` to
`number` regardless of the current step, while with `NaN`, `0` or an absent
number it is a no-op; any unrecognized type leaves the state unchanged. -/
theorem c6_changeStep_transitions (st : FormSt) (number : Option JSNum) :
    changeStep st "next" number = { st with currentStep := st.currentStep + 1 }
    ∧ changeStep st "prev" number = { st with currentStep := max 1 (st.currentStep - 1) }
    ∧ changeStep st "first" number = { st with currentStep := 1 }
    ∧ (∀ i : Int, i ≠ 0 →
        changeStep st "specific" (some (.int i)) = { st with currentStep := i })
    ∧ changeStep st "specific" (some (.int 0)) = st
    ∧ changeStep st "specific" (some .nan) = st
    ∧ changeStep st "specific" none = st
    ∧ (∀ type, type ∉ (["next", "prev", "first", "specific"] : List String) →
        changeStep st type number = st) := by
  refine ⟨rfl, rfl, rfl, ?_, rfl, rfl, rfl, ?_⟩
  · intro i hi
    have : (JSNum.int i).truthy = true := by
      simp [JSNum.truthy, hi]
    simp [changeStep, this, JSNum.isNaN, JSNum.intD]
  · intro type htype
    simp only [List.mem_cons, List.not_mem_nil, or_false, not_or] at htype
    obtain ⟨h1, h2, h3, h4⟩ := htype
    simp [changeStep, h1, h2, h3, h4]

/-- The sample validator never reports an empty error message. -/
theorem reqValidator_wf : ValidatorWF (some reqValidator) := by
  intro x
  show (if jsTruthy x then none else some "Required") ≠ some ""
  split
  · simp
  · simp

/-- C4: re-registering an existing field name keeps the stored `fieldId` and
resolves the initial value by priority — the existing value when non-nullish
(so the value is not reset to the new `defaultValue`), else the deep lookup
of the name in `initialValues`, else the new `defaultValue`; and when the
existing registration carried a (truthy) error, the newly built validator is
re-run against the resolved value. -/
theorem c4_reregister_preserves (env : FormEnv) (now : Nat) (st : FormSt)
    (name type : String) (defaultValue : JSValue) (fieldDisabled : Bool)
    (validationRules : JSValue) (step : JSNum) (ef : Field)
    (hname : name ≠ "") (hef : getField st.fields name = some ef) :
    ∃ f st1, registerField env now st (some name) type defaultValue fieldDisabled
        validationRules step = (some f, st1)
      ∧ f.fieldState.fieldId = ef.fieldState.fieldId
      ∧ f.fieldState.value = jsCoalesce ef.fieldState.value
          (jsCoalesce (deepGet env.initialValues name) defaultValue)
      ∧ (jsNullish ef.fieldState.value = false →
          f.fieldState.value = ef.fieldState.value)
      ∧ (jsNullish ef.fieldState.value = true →
          jsNullish (deepGet env.initialValues name) = false →
          f.fieldState.value = deepGet env.initialValues name)
      ∧ (jsNullish ef.fieldState.value = true →
          jsNullish (deepGet env.initialValues name) = true →
          f.fieldState.value = defaultValue)
      ∧ (errTruthy ef.fieldState.error = true →
          f.fieldState.error
            = applyValidator (buildValidator env name validationRules)
                f.fieldState.value) := by
  simp only [registerField, hef]
  rw [if_neg hname]
  refine ⟨_, _, rfl, rfl, rfl, ?_, ?_, ?_, ?_⟩
  · intro h1
    show jsCoalesce ef.fieldState.value _ = ef.fieldState.value
    exact jsCoalesce_of_not_nullish _ _ h1
  · intro h1 h2
    show jsCoalesce ef.fieldState.value _ = deepGet env.initialValues name
    rw [jsCoalesce_of_nullish _ _ h1]
    exact jsCoalesce_of_not_nullish _ _ h2
  · intro h1 h2
    show jsCoalesce ef.fieldState.value _ = defaultValue
    rw [jsCoalesce_of_nullish _ _ h1]
    exact jsCoalesce_of_nullish _ _ h2
  · intro h1
    show (if errTruthy ef.fieldState.error = true then _ else none) = _
    rw [if_pos h1]

/-- A sample registered state used by the C4 witness: the existing field
carries value `"old"` and a `"Required"` error. -/
def c4St : FormSt :=
  { fields := [mkSample "plain" "text" 1 (.str "old") (some "Required") (.str "dflt")
      (some reqValidator) 3]
    currentStep := 1
    nextId := 1 }

/-- C4 witness: re-registering `"plain"` with a different default keeps the
carried-over value `"old"` and re-runs the (rebuilt) validator on it. -/
theorem c4_reregister_preserves_witness :
    ∃ f st1, registerField sampleEnv 7 c4St (some "plain") "text" (.str "newdflt")
        false .undefined (.int 1) = (some f, st1)
      ∧ f.fieldState.fieldId
          = (mkSample "plain" "text" 1 (.str "old") (some "Required") (.str "dflt")
              (some reqValidator) 3).fieldState.fieldId
      ∧ f.fieldState.value = jsCoalesce (.str "old")
          (jsCoalesce (deepGet sampleEnv.initialValues "plain") (.str "newdflt"))
      ∧ (jsNullish (.str "old") = false → f.fieldState.value = .str "old")
      ∧ (jsNullish (.str "old") = true →
          jsNullish (deepGet sampleEnv.initialValues "plain") = false →
          f.fieldState.value = deepGet sampleEnv.initialValues "plain")
      ∧ (jsNullish (.str "old") = true →
          jsNullish (deepGet sampleEnv.initialValues "plain") = true →
          f.fieldState.value = .str "newdflt")
      ∧ (errTruthy (some "Required") = true →
          f.fieldState.error
            = applyValidator (buildValidator sampleEnv "plain" .undefined)
                f.fieldState.value) :=
  c4_reregister_preserves sampleEnv 7 c4St "plain" "text" (.str "newdflt") false
    .undefined (.int 1)
    (mkSample "plain" "text" 1 (.str "old") (some "Required") (.str "dflt")
      (some reqValidator) 3)
    (by decide) rfl

/-- C5: `setValue(value, skipEqualityCheck)` on a registered field is a
no-op returning `undefined` when the check is not skipped and the new value
is strictly equal to the stored one; otherwise it runs the field's validator
on the value, stores value, resulting error and a refreshed `lastUpdate` in
place, leaves other fields and the step unchanged, and returns true exactly
when the resulting error is absent (the stored validator being well-formed,
i.e. never reporting an empty error message). -/
theorem c5_setValue_spec (now : Nat) (st : FormSt) (name : String) (value : JSValue)
    (skipCheck : Bool) (f : Field)
    (hf : getField st.fields name = some f)
    (hwf : ValidatorWF f.fieldState.validator) :
    (skipCheck = false → jsStrictEq f.fieldState.value value = true →
      setValue now st name value skipCheck = some (none, st))
    ∧ (skipCheck = true ∨ jsStrictEq f.fieldState.value value = false →
      ∃ b st1, setValue now st name value skipCheck = some (some b, st1)
        ∧ (∃ f1, getField st1.fields name = some f1
            ∧ f1.fieldState.value = value
            ∧ f1.fieldState.error = applyValidator f.fieldState.validator value
            ∧ f1.fieldState.lastUpdate = now
            ∧ f1.fieldState.validator = f.fieldState.validator)
        ∧ (b = true ↔ applyValidator f.fieldState.validator value = none)
        ∧ (∀ g1 ∈ st.fields, g1.name ≠ name → g1 ∈ st1.fields)
        ∧ st1.currentStep = st.currentStep) := by
  constructor
  · intro hskip heq
    unfold setValue
    rw [hf]
    simp [hskip, heq]
  · intro hcase
    have hcond : (!skipCheck && jsStrictEq f.fieldState.value value) = false := by
      rcases hcase with h | h <;> simp [h]
    have hself := getField_updateFieldAt_self st.fields name
      (fun state => { state with fieldState := { state.fieldState with
        value := value,
        error := applyValidator f.fieldState.validator value,
        lastUpdate := now } }) (fun f2 => rfl)
    rw [hf] at hself
    unfold setValue
    rw [hf]
    simp only [hcond, Bool.false_eq_true, if_false]
    refine ⟨_, _, rfl, ⟨_, hself, rfl, rfl, rfl, rfl⟩, ?_,
      fun g1 hg1 hne => mem_updateFieldAt_of_ne st.fields name _ g1 hg1 hne, rfl⟩
    cases herr : applyValidator f.fieldState.validator value with
    | none => simp [errTruthy]
    | some s =>
      have hs : ¬ s = "" := fun hc => hwf value (by rw [herr, hc])
      have hsi : s.isEmpty = false := by
        cases hemp : s.isEmpty
        · rfl
        · exact absurd ((String.isEmpty_iff s).mp hemp) hs
      simp [errTruthy, hsi]

/-- A sample registered state used by the C5 witness. -/
def c5St : FormSt :=
  { fields := [mkSample "plain" "text" 1 (.str "a") none (.str "dflt")
      (some reqValidator) 3]
    currentStep := 1
    nextId := 1 }

/-- C5 witness: writing the empty string over `"a"` is not skipped, stores
the `"Required"` error with the new value, and returns false. -/
theorem c5_setValue_spec_witness :
    ∃ b st1, setValue 5 c5St "plain" (.str "") false = some (some b, st1)
      ∧ (∃ f1, getField st1.fields "plain" = some f1
          ∧ f1.fieldState.value = .str ""
          ∧ f1.fieldState.error = applyValidator (some reqValidator) (.str "")
          ∧ f1.fieldState.lastUpdate = 5
          ∧ f1.fieldState.validator = some reqValidator)
      ∧ (b = true ↔ applyValidator (some reqValidator) (.str "") = none)
      ∧ (∀ g1 ∈ c5St.fields, g1.name ≠ "plain" → g1 ∈ st1.fields)
      ∧ st1.currentStep = c5St.currentStep :=
  (c5_setValue_spec 5 c5St "plain" (.str "") false
    (mkSample "plain" "text" 1 (.str "a") none (.str "dflt") (some reqValidator) 3)
    rfl reqValidator_wf).2 (Or.inr rfl)

/-- A key just assigned in an entry list is read back. -/
theorem getKey_setKey_self (l : List (String × JSValue)) (k : String) (v : JSValue) :
    getKey (setKey l k v) k = some v := by
  induction l with
  | nil => simp [setKey, getKey]
  | cons p rest ih =>
    obtain ⟨pk, pv⟩ := p
    by_cases h : pk = k
    · simp [setKey, getKey, h]
    · simp [setKey, getKey, h, ih]

/-- Assigning one key does not change the lookup of another. -/
theorem getKey_setKey_ne (l : List (String × JSValue)) (k k1 : String) (v : JSValue)
    (h : k1 ≠ k) : getKey (setKey l k v) k1 = getKey l k1 := by
  have hk : ¬ k = k1 := fun hc => h hc.symm
  induction l with
  | nil => simp [setKey, getKey, hk]
  | cons p rest ih =>
    obtain ⟨pk, pv⟩ := p
    by_cases hp : pk = k
    · subst hp
      simp [setKey, getKey, hk]
    · simp [setKey, getKey, hp, ih]

/-- Appending the same suffix to two strings is injective in the prefix. -/
theorem string_append_cancel_right (a b c : String) (h : a ++ c = b ++ c) :
    a = b := by
  have hd : a.data ++ c.data = b.data ++ c.data := by
    have h2 := congrArg String.data h
    simpa using h2
  exact String.ext (List.append_cancel_right hd)

/-- Fields whose names all differ from `n` never touch the `n_first`
enrichment key. -/
theorem getKey_enrich_foldl_of_absent (fields : List Field) :
    ∀ acc n, (∀ g ∈ fields, g.name ≠ n) →
      getKey (fields.foldl enrichStep acc) (n ++ "_first")
        = getKey acc (n ++ "_first") := by
  induction fields with
  | nil => intro acc n hn; rfl
  | cons g gs ih =>
    intro acc n hn
    have hg : g.name ≠ n := hn g (List.mem_cons_self g gs)
    have hkey : n ++ "_first" ≠ g.name ++ "_first" := fun hc =>
      hg (string_append_cancel_right n g.name "_first" hc).symm
    show getKey (gs.foldl enrichStep (enrichStep acc g)) (n ++ "_first") = _
    rw [ih (enrichStep acc g) n (fun g1 hg1 => hn g1 (List.mem_cons_of_mem g hg1))]
    unfold enrichStep
    split
    · exact getKey_setKey_ne acc (g.name ++ "_first") (n ++ "_first") _ hkey
    · rfl

/-- Under unique field names, the enrichment fold binds the `name_first` key
of every attachment field to that field's first-attachment URL. -/
theorem getKey_enrich_foldl_of_mem (fields : List Field) :
    ∀ acc f, f ∈ fields → f.type = "attachment" → (fieldNames fields).Nodup →
      getKey (fields.foldl enrichStep acc) (f.name ++ "_first")
        = some (attachmentFirstUrl f.fieldState.value) := by
  induction fields with
  | nil => intro acc f hf; simp at hf
  | cons g gs ih =>
    intro acc f hf hatt hnd
    have hnds : (g.name :: fieldNames gs).Nodup := by
      simpa [fieldNames] using hnd
    rcases List.mem_cons.mp hf with hfg | hfg
    · subst hfg
      have habs : ∀ g1 ∈ gs, g1.name ≠ f.name := by
        intro g1 hg1 hc
        have : f.name ∈ fieldNames gs := by
          simp only [fieldNames, List.mem_map]
          exact ⟨g1, hg1, hc⟩
        exact (List.nodup_cons.mp hnds).1 this
      show getKey (gs.foldl enrichStep (enrichStep acc f)) (f.name ++ "_first") = _
      rw [getKey_enrich_foldl_of_absent gs (enrichStep acc f) f.name habs]
      unfold enrichStep
      rw [if_pos hatt]
      exact getKey_setKey_self acc (f.name ++ "_first") _
    · exact ih (enrichStep acc g) f hfg hatt (List.nodup_cons.mp hnds).2

/-- Non-attachment fields contribute nothing to the enrichment fold. -/
theorem enrich_foldl_filter (fields : List Field) :
    ∀ acc, fields.foldl enrichStep acc
      = (fields.filter (fun f => f.type = "attachment")).foldl enrichStep acc := by
  induction fields with
  | nil => intro acc; rfl
  | cons g gs ih =>
    intro acc
    by_cases h : g.type = "attachment"
    · have hfil : (g :: gs).filter (fun f => f.type = "attachment")
          = g :: gs.filter (fun f => f.type = "attachment") := by
        simp [List.filter_cons, h]
      rw [hfil]
      simp only [List.foldl_cons]
      rw [ih (enrichStep acc g)]
    · have hfil : (g :: gs).filter (fun f => f.type = "attachment")
          = gs.filter (fun f => f.type = "attachment") := by
        simp [List.filter_cons, h]
      rw [hfil]
      simp only [List.foldl_cons]
      have hstep : enrichStep acc g = acc := by
        unfold enrichStep
        rw [if_neg h]
      rw [hstep, ih acc]

/-- C9: under unique field names, the enrichments map binds
`` `${name}_first` `` for every attachment field — to the `url` of the first
element when the value is an array with a present (non-nullish) first
element, and to absent (`null`) when the attachment value is empty or
absent — and fields of other types contribute no enrichment entry (the
enrichment fold over all fields equals the fold over the attachment fields
alone). -/
theorem c9_enrichments_spec (fields : List Field)
    (hnd : (fieldNames fields).Nodup) :
    (∀ f ∈ fields, f.type = "attachment" →
      getKey (deriveBindingEnrichments fields) (f.name ++ "_first")
        = some (attachmentFirstUrl f.fieldState.value)
      ∧ (∀ e es, f.fieldState.value = .arr (e :: es) → jsNullish e = false →
          attachmentFirstUrl f.fieldState.value = jsGetProp e "url")
      ∧ (f.fieldState.value = .arr [] ∨ f.fieldState.value = .null
          ∨ f.fieldState.value = .undefined →
          attachmentFirstUrl f.fieldState.value = .null))
    ∧ deriveBindingEnrichments fields
        = deriveBindingEnrichments (fields.filter (fun f => f.type = "attachment")) := by
  constructor
  · intro f hf hatt
    refine ⟨getKey_enrich_foldl_of_mem fields [] f hf hatt hnd, ?_, ?_⟩
    · intro e es hv hnn
      rw [hv]
      simp [attachmentFirstUrl, hnn]
    · intro hcase
      rcases hcase with h | h | h <;> rw [h] <;> rfl
  · exact enrich_foldl_filter fields []

/-- The C9 witness fields: an attachment with two entries, an attachment
with an empty list, and a text field. -/
def c9Att : Field :=
  mkSample "photo" "attachment" 1
    (.arr [.obj [("url", .str "a")], .obj [("url", .str "b")]]) none .null none 4

/-- The C9 empty attachment field. -/
def c9Empty : Field :=
  mkSample "empty" "attachment" 1 (.arr []) none .null none 4

/-- The C9 non-attachment field. -/
def c9Text : Field :=
  mkSample "plain2" "text" 1 (.str "t") none .null none 4

/-- The C9 witness field array. -/
def c9Fields : List Field := [c9Att, c9Empty, c9Text]

/-- C9 witness: `photo_first` is the first URL `"a"`, `empty_first` is
absent (`null`). -/
theorem c9_enrichments_spec_witness :
    getKey (deriveBindingEnrichments c9Fields) ("photo" ++ "_first")
      = some (attachmentFirstUrl
          (.arr [.obj [("url", .str "a")], .obj [("url", .str "b")]]))
    ∧ attachmentFirstUrl (.arr [.obj [("url", .str "a")], .obj [("url", .str "b")]])
      = jsGetProp (.obj [("url", .str "a")]) "url"
    ∧ getKey (deriveBindingEnrichments c9Fields) ("empty" ++ "_first")
      = some (attachmentFirstUrl (.arr []))
    ∧ attachmentFirstUrl (.arr []) = .null :=
  have h := c9_enrichments_spec c9Fields (by decide)
  have hm1 : c9Att ∈ c9Fields := List.mem_cons_self c9Att [c9Empty, c9Text]
  have hm2 : c9Empty ∈ c9Fields :=
    List.mem_cons_of_mem c9Att (List.mem_cons_self c9Empty [c9Text])
  ⟨(h.1 c9Att hm1 rfl).1,
   (h.1 c9Att hm1 rfl).2.1 (.obj [("url", .str "a")]) [.obj [("url", .str "b")]] rfl rfl,
   (h.1 c9Empty hm2 rfl).1,
   (h.1 c9Empty hm2 rfl).2.2 (Or.inl rfl)⟩

/-- A truthiness-tested error from a well-formed source is truthy exactly
when present. -/
theorem errTruthy_eq_false_iff (e : Option String) (hne : e ≠ some "") :
    errTruthy e = false ↔ e = none := by
  cases e with
  | none => simp [errTruthy]
  | some s =>
    have hs : ¬ s = "" := fun hc => hne (by rw [hc])
    have hsi : s.isEmpty = false := by
      cases hemp : s.isEmpty
      · rfl
      · exact absurd ((String.isEmpty_iff s).mp hemp) hs
    simp [errTruthy, hsi]

/-- A name appearing in the field array is found by `getField`. -/
theorem getField_isSome_of_name_mem (fields : List Field) (n : String)
    (h : n ∈ fieldNames fields) : (getField fields n).isSome := by
  induction fields with
  | nil => simp [fieldNames] at h
  | cons f fs ih =>
    by_cases hf : f.name = n
    · simp [getField, hf]
    · simp only [fieldNames, List.map_cons, List.mem_cons] at h
      rcases h with h | h
      · exact absurd h.symm hf
      · simp only [getField, hf, if_false]
        exact ih (by simpa [fieldNames] using h)

/-- Under unique names, `getField` finds exactly the member record bearing
the name. -/
theorem getField_of_mem_nodup (fields : List Field) (f : Field)
    (hnd : (fieldNames fields).Nodup) (hf : f ∈ fields) :
    getField fields f.name = some f := by
  induction fields with
  | nil => simp at hf
  | cons g gs ih =>
    have hnds : (g.name :: fieldNames gs).Nodup := by
      simpa [fieldNames] using hnd
    rcases List.mem_cons.mp hf with h | h
    · subst h
      simp [getField]
    · have hg : ¬ g.name = f.name := by
        intro hc
        have hmem : f.name ∈ fieldNames gs := by
          simp only [fieldNames, List.mem_map]
          exact ⟨f, h, rfl⟩
        exact (List.nodup_cons.mp hnds).1 (hc ▸ hmem)
      simp only [getField, hg, if_false]
      exact ih (List.nodup_cons.mp hnds).2 h

/-- Under unique names, two member records with the same name coincide. -/
theorem eq_of_name_eq_of_nodup (fields : List Field)
    (hnd : (fieldNames fields).Nodup) (f g : Field) (hf : f ∈ fields)
    (hg : g ∈ fields) (hname : f.name = g.name) : f = g := by
  have h1 := getField_of_mem_nodup fields f hnd hf
  have h2 := getField_of_mem_nodup fields g hnd hg
  rw [hname] at h1
  rw [h1] at h2
  exact Option.some.inj h2

/-- The `fieldValidate` operation on a registered field: it returns whether the re-run
validator reported no truthy error, rewrites only that field's error and
timestamp, and preserves every field's name, value, validator and step. -/
theorem fieldValidate_found (now : Nat) (st : FormSt) (name : String) (f : Field)
    (hf : getField st.fields name = some f) :
    ∃ st1, fieldValidate now st name
        = some (!errTruthy (applyValidator f.fieldState.validator f.fieldState.value),
            st1)
      ∧ (∀ m, (getField st1.fields m).map core = (getField st.fields m).map core)
      ∧ (∀ m, m ≠ name → getField st1.fields m = getField st.fields m)
      ∧ (∃ f1, getField st1.fields name = some f1
          ∧ f1.fieldState.error
              = applyValidator f.fieldState.validator f.fieldState.value
          ∧ f1.fieldState.lastUpdate = now)
      ∧ st1.currentStep = st.currentStep := by
  have hb : ∀ x : Bool, (some x == some true) = x := by
    intro x
    cases x <;> rfl
  have hself := getField_updateFieldAt_self st.fields name
    (fun state => { state with fieldState := { state.fieldState with
      value := f.fieldState.value,
      error := applyValidator f.fieldState.validator f.fieldState.value,
      lastUpdate := now } }) (fun f2 => rfl)
  rw [hf] at hself
  simp only [Option.map_some'] at hself
  have heq : fieldValidate now st name
      = some (!errTruthy (applyValidator f.fieldState.validator f.fieldState.value),
          { st with fields := updateFieldAt st.fields name (fun state =>
            { state with fieldState := { state.fieldState with
              value := f.fieldState.value,
              error := applyValidator f.fieldState.validator f.fieldState.value,
              lastUpdate := now } }) }) := by
    unfold fieldValidate setValue
    rw [hf]
    simp only [Bool.not_true, Bool.false_and, Bool.false_eq_true, if_false]
    rw [hb]
  have hframe : ∀ m, m ≠ name → getField (updateFieldAt st.fields name (fun state =>
      { state with fieldState := { state.fieldState with
        value := f.fieldState.value,
        error := applyValidator f.fieldState.validator f.fieldState.value,
        lastUpdate := now } })) m = getField st.fields m := by
    intro m hm
    exact getField_updateFieldAt_ne st.fields name m _ (fun f2 => rfl) hm
  refine ⟨_, heq, ?_, hframe, ⟨_, hself, rfl, rfl⟩, rfl⟩
  intro m
  by_cases hm : m = name
  · subst hm
    rw [hself, hf]
    rfl
  · rw [hframe m hm]

/-- A pointwise-equal predicate gives an equal `all`. -/
theorem list_all_congr (l : List String) (p q : String → Bool)
    (h : ∀ x ∈ l, p x = q x) : l.all p = l.all q := by
  induction l with
  | nil => rfl
  | cons x xs ih =>
    simp only [List.all_cons]
    rw [h x (List.mem_cons_self x xs),
      ih (fun y hy => h y (List.mem_cons_of_mem x hy))]

/-- Reading the validator through a successful lookup. -/
theorem fieldValidatorAt_eq (st : FormSt) (n : String) (f : Field)
    (h : getField st.fields n = some f) :
    fieldValidatorAt st n = f.fieldState.validator := by
  unfold fieldValidatorAt
  rw [h]

/-- Reading the value through a successful lookup. -/
theorem fieldValueAt_eq (st : FormSt) (n : String) (f : Field)
    (h : getField st.fields n = some f) :
    fieldValueAt st n = f.fieldState.value := by
  unfold fieldValueAt
  rw [h]

/-- Reading the validator of an unregistered name. -/
theorem fieldValidatorAt_none (st : FormSt) (n : String)
    (h : getField st.fields n = none) : fieldValidatorAt st n = none := by
  unfold fieldValidatorAt
  rw [h]

/-- Reading the value of an unregistered name. -/
theorem fieldValueAt_none (st : FormSt) (n : String)
    (h : getField st.fields n = none) : fieldValueAt st n = .undefined := by
  unfold fieldValueAt
  rw [h]

/-- Validation-preserved cores determine `fieldOkAt`. -/
theorem fieldOkAt_eq_of_core (st1 st : FormSt)
    (h : ∀ m, (getField st1.fields m).map core = (getField st.fields m).map core)
    (n : String) : fieldOkAt st1 n = fieldOkAt st n := by
  unfold fieldOkAt
  have hm := h n
  cases h1 : getField st1.fields n with
  | none =>
    cases h2 : getField st.fields n with
    | none =>
      rw [fieldValidatorAt_none st1 n h1, fieldValueAt_none st1 n h1,
        fieldValidatorAt_none st n h2, fieldValueAt_none st n h2]
    | some f => rw [h1, h2] at hm; simp at hm
  | some f1 =>
    cases h2 : getField st.fields n with
    | none => rw [h1, h2] at hm; simp at hm
    | some f2 =>
      rw [h1, h2] at hm
      simp only [Option.map_some', Option.some.injEq, core, Prod.mk.injEq] at hm
      rw [fieldValidatorAt_eq st1 n f1 h1, fieldValueAt_eq st1 n f1 h1,
        fieldValidatorAt_eq st n f2 h2, fieldValueAt_eq st n f2 h2,
        hm.2.1, hm.2.2.1]

/-- The `forEach` loop of `formApi.validate`, characterized: it succeeds on
names of registered fields, preserves all cores, leaves unlisted names
entirely unchanged, keeps the step, and returns the conjunction of the
accumulator with each listed field's `fieldOkAt` judged in the entry
state. -/
theorem formValidateGo_spec (now : Nat) :
    ∀ (names : List String) (acc : Bool) (st : FormSt),
    (∀ n ∈ names, (getField st.fields n).isSome) →
    ∃ b st1, formValidateGo now names acc st = some (b, st1)
      ∧ (∀ m, (getField st1.fields m).map core = (getField st.fields m).map core)
      ∧ (∀ m, m ∉ names → getField st1.fields m = getField st.fields m)
      ∧ b = (acc && names.all (fun n => fieldOkAt st n))
      ∧ st1.currentStep = st.currentStep := by
  intro names
  induction names with
  | nil =>
    intro acc st hex
    exact ⟨acc, st, rfl, fun m => rfl, fun m hm => rfl, by simp, rfl⟩
  | cons n ns ih =>
    intro acc st hex
    have hn := hex n (List.mem_cons_self n ns)
    obtain ⟨f, hf⟩ := Option.isSome_iff_exists.mp hn
    obtain ⟨st2, heq, hcore, hframe, hupd, hstep⟩ := fieldValidate_found now st n f hf
    have hex2 : ∀ n1 ∈ ns, (getField st2.fields n1).isSome := by
      intro n1 hn1
      have hc := congrArg Option.isSome (hcore n1)
      simp only [Option.isSome_map'] at hc
      rw [hc]
      exact hex n1 (List.mem_cons_of_mem n hn1)
    obtain ⟨b2, st3, hgo, hcore2, hframe2, hb2, hstep2⟩ :=
      ih (acc && !errTruthy (applyValidator f.fieldState.validator f.fieldState.value))
        st2 hex2
    have hokn : fieldOkAt st n
        = !errTruthy (applyValidator f.fieldState.validator f.fieldState.value) := by
      unfold fieldOkAt fieldValidatorAt fieldValueAt
      rw [hf]
    refine ⟨b2, st3, ?_, ?_, ?_, ?_, hstep2.trans hstep⟩
    · simp only [formValidateGo, heq]
      exact hgo
    · intro m
      exact (hcore2 m).trans (hcore m)
    · intro m hm
      simp only [List.mem_cons, not_or] at hm
      exact (hframe2 m hm.2).trans (hframe m hm.1)
    · rw [hb2]
      have hall : ns.all (fun n1 => fieldOkAt st2 n1) = ns.all (fun n1 => fieldOkAt st n1) :=
        list_all_congr ns _ _ (fun x hx => fieldOkAt_eq_of_core st2 st hcore x)
      rw [hall]
      simp only [List.all_cons, hokn, Bool.and_assoc]

/-- C8: `validate(onlyCurrentStep)`.  With `onlyCurrentStep = true` only the
fields whose `step` equals `currentStep` are validated, and every field on a
different step keeps its whole record (value, error, `lastUpdate`)
unchanged; in both modes the call returns true exactly when every validated
field's validator accepts its current value (no error), the stored
validators being well-formed. -/
theorem c8_formValidate_spec (now : Nat) (st : FormSt)
    (hnd : (fieldNames st.fields).Nodup)
    (hwf : ∀ f ∈ st.fields, ValidatorWF f.fieldState.validator) :
    (∃ b st1, formValidate now st true = some (b, st1)
      ∧ (∀ f ∈ st.fields, f.step ≠ st.currentStep → getField st1.fields f.name = some f)
      ∧ (b = true ↔ ∀ f ∈ st.fields, f.step = st.currentStep →
          applyValidator f.fieldState.validator f.fieldState.value = none)
      ∧ st1.currentStep = st.currentStep)
    ∧ (∃ b st2, formValidate now st false = some (b, st2)
      ∧ (b = true ↔ ∀ f ∈ st.fields,
          applyValidator f.fieldState.validator f.fieldState.value = none)) := by
  have hok_iff : ∀ f ∈ st.fields, (fieldOkAt st f.name = true
      ↔ applyValidator f.fieldState.validator f.fieldState.value = none) := by
    intro f hf
    have hg := getField_of_mem_nodup st.fields f hnd hf
    unfold fieldOkAt fieldValidatorAt fieldValueAt
    rw [hg]
    have hne : applyValidator f.fieldState.validator f.fieldState.value ≠ some "" :=
      hwf f hf _
    rw [Bool.not_eq_true']
    exact errTruthy_eq_false_iff _ hne
  constructor
  · -- onlyCurrentStep = true
    have hex : ∀ n ∈ (st.fields.filter (fun f => f.step = st.currentStep)).map
        (fun f => f.name), (getField st.fields n).isSome := by
      intro n hn
      obtain ⟨f, hfmem, hfn⟩ := List.mem_map.mp hn
      have : f ∈ st.fields := (List.mem_filter.mp hfmem).1
      exact hfn ▸ getField_isSome_of_name_mem st.fields f.name
        (by simp only [fieldNames, List.mem_map]; exact ⟨f, this, rfl⟩)
    obtain ⟨b, st1, hgo, hcore, hframe, hb, hstep⟩ :=
      formValidateGo_spec now _ true st hex
    refine ⟨b, st1, hgo, ?_, ?_, hstep⟩
    · intro f hf hfstep
      have hnot : f.name ∉ (st.fields.filter (fun f => f.step = st.currentStep)).map
          (fun f => f.name) := by
        intro hmem
        obtain ⟨g, hgmem, hgn⟩ := List.mem_map.mp hmem
        have hgf : g ∈ st.fields := (List.mem_filter.mp hgmem).1
        have hgs : g.step = st.currentStep := by
          have := (List.mem_filter.mp hgmem).2
          simpa using this
        have : g = f := eq_of_name_eq_of_nodup st.fields hnd g f hgf hf hgn
        exact hfstep (this ▸ hgs)
      rw [hframe f.name hnot]
      exact getField_of_mem_nodup st.fields f hnd hf
    · rw [hb]
      simp only [Bool.true_and, List.all_eq_true, List.mem_map]
      constructor
      · intro hall f hf hfstep
        have hmem : f ∈ st.fields.filter (fun f => f.step = st.currentStep) :=
          List.mem_filter.mpr ⟨hf, by simpa using hfstep⟩
        exact (hok_iff f hf).mp (hall (f.name) ⟨f, hmem, rfl⟩)
      · intro hall n hn
        obtain ⟨f, hfmem, hfn⟩ := hn
        have hf : f ∈ st.fields := (List.mem_filter.mp hfmem).1
        have hfstep : f.step = st.currentStep := by
          have := (List.mem_filter.mp hfmem).2
          simpa using this
        exact hfn ▸ (hok_iff f hf).mpr (hall f hf hfstep)
  · -- onlyCurrentStep = false
    have hex : ∀ n ∈ st.fields.map (fun f => f.name),
        (getField st.fields n).isSome :=
      fun n hn => getField_isSome_of_name_mem st.fields n hn
    obtain ⟨b, st2, hgo, hcore, hframe, hb, hstep⟩ :=
      formValidateGo_spec now _ true st hex
    refine ⟨b, st2, hgo, ?_⟩
    rw [hb]
    simp only [Bool.true_and, List.all_eq_true, List.mem_map]
    constructor
    · intro hall f hf
      exact (hok_iff f hf).mp (hall f.name ⟨f, hf, rfl⟩)
    · intro hall n hn
      obtain ⟨f, hf, hfn⟩ := hn
      exact hfn ▸ (hok_iff f hf).mpr (hall f hf)

/-- The C8 witness state: a failing required field on step 1 and an empty
field on step 2 whose record must survive step-1 validation unchanged. -/
def c8St : FormSt :=
  { fields :=
      [mkSample "a" "text" 1 (.str "") none (.str "") (some reqValidator) 3,
       mkSample "b" "text" 2 (.str "") (some "Required") (.str "")
         (some reqValidator) 4]
    currentStep := 1
    nextId := 2 }

/-- C8 witness: validating only step 1 of the sample state succeeds as a
call, returns false (the step-1 field is empty and required), and leaves the
step-2 field untouched. -/
theorem c8_formValidate_spec_witness :
    (∃ b st1, formValidate 9 c8St true = some (b, st1)
      ∧ (∀ f ∈ c8St.fields, f.step ≠ c8St.currentStep →
          getField st1.fields f.name = some f)
      ∧ (b = true ↔ ∀ f ∈ c8St.fields, f.step = c8St.currentStep →
          applyValidator f.fieldState.validator f.fieldState.value = none)
      ∧ st1.currentStep = c8St.currentStep)
    ∧ (∃ b st2, formValidate 9 c8St false = some (b, st2)
      ∧ (b = true ↔ ∀ f ∈ c8St.fields,
          applyValidator f.fieldState.validator f.fieldState.value = none)) :=
  c8_formValidate_spec 9 c8St (by decide)
    (by
      intro f hf
      rcases List.mem_cons.mp hf with h | h
      · rw [h]
        exact reqValidator_wf
      · rcases List.mem_cons.mp h with h2 | h2
        · rw [h2]
          exact reqValidator_wf
        · simp at h2)

/-- C6 witness: at step 3, `specific 4` moves to step 4 and an unrecognized
type is a no-op. -/
theorem c6_changeStep_transitions_witness :
    changeStep step3St "specific" (some (.int 4)) = { step3St with currentStep := 4 }
    ∧ changeStep step3St "bogus" none = step3St :=
  ⟨(c6_changeStep_transitions step3St none).2.2.2.1 4 (by decide),
   (c6_changeStep_transitions step3St none).2.2.2.2.2.2.2 "bogus" (by decide)⟩

end InnerForm
